import Mathlib

/-!
# Verification of the kooyapady-admin-backend media/folder core

Shallow embedding of the pure core of the repository:

* the ordered-collection reconciler of `PATCH /:folderId/reorder`
  (src/routes/upload.js, lines 274-296),
* the upload normalization pipeline of `POST /:folderId`
  (src/routes/upload.js, lines 46-121),
* the delete-media search of `DELETE /:folderId/:publicId`
  (src/routes/upload.js, lines 166-199),
* the folder-level reorder of `PATCH /reorder-folders`
  (src/routes/upload.js, lines 307-331), and
* the authentication gate (src/routes/auth.js, `authenticate`).

JavaScript arrays become `List`, `undefined`/missing values become
`Option`, the JS `Map` built from an entry list becomes a last-write-wins
lookup, and the external collaborators (CDN upload, JWT verify, DB
lookups) become function parameters.
-/

namespace Kooyapady

/-! ## Order reconciler (src/routes/upload.js 274-296)

The route body, for each collection, is

```js
const map = new Map(folder.images.map(img => [img.public_id, img]));
const newImages = [];
for (const pid of imagesOrder) {
  if (map.has(pid)) newImages.push(map.get(pid));
}
for (const img of folder.images) if (!imagesOrder.includes(img.public_id)) newImages.push(img);
folder.images = newImages;
```

The `Map` constructor inserts entries in list order, later insertions
overwriting earlier ones, so lookup returns the *last* entry with a given
key. The same code shape is used verbatim for images and videos, so we
embed it once, generic in the entry type with a key projection. -/

/-- `new Map(l.map(e => [key e, e])).get pid`: last-write-wins lookup. -/
def mapLookup (key : α → String) (l : List α) (pid : String) : Option α :=
  (l.filter (fun e => key e == pid)).getLast?

/-- The reorder route's reconciliation: walk `order`, pushing the looked-up
entry for every id the map knows; then append every entry of `current`
whose key does not occur in `order`. -/
def reconcile (key : α → String) (current : List α) (order : List String) : List α :=
  order.filterMap (mapLookup key current) ++
    current.filter (fun e => !(order.contains (key e)))

/-! ## Media records and folders (src/models/folder.js) -/

/-- One element of `folder.images` as built by the upload route:
`{ url, public_id, ...(label !== undefined ? { label } : {}) }`. -/
structure ImageObj where
  url : String
  public_id : String
  label : Option String
deriving DecidableEq, Repr

/-- One element of `folder.videos`:
`{ url, public_id, ...(title !== undefined ? { title } : {}) }`. -/
structure VideoObj where
  url : String
  public_id : String
  title : Option String
deriving DecidableEq, Repr

/-- A folder document. `order` is the sort key set by the folder-level
reorder route (`$set: { order: idx }`); it is absent until first set,
hence `Option`. `createdAt` is the schema's creation timestamp. -/
structure Folder where
  id : String
  name : String
  images : List ImageObj
  videos : List VideoObj
  order : Option Nat
  createdAt : Nat
deriving DecidableEq, Repr

/-- `PATCH /:folderId/reorder`: each collection is reconciled only when the
corresponding body field is an array (`Array.isArray`); a non-array field
(modelled `none`) leaves that collection untouched. No other folder field
is written. -/
def reorderMedia (f : Folder) (imagesOrder : Option (List String))
    (videosOrder : Option (List String)) : Folder :=
  let f1 :=
    match imagesOrder with
    | some io => { f with images := reconcile ImageObj.public_id f.images io }
    | none => f
  match videosOrder with
  | some vo => { f1 with videos := reconcile VideoObj.public_id f1.videos vo }
  | none => f1

/-! ## Character-level string helpers

`String.startsWith`, `slice`, `toLowerCase`, `trim` are modelled on
`String.data` so that all definitions evaluate inside the kernel. -/

/-- `s.startsWith p` on the underlying character list. -/
def strStarts (s p : String) : Bool := p.data.isPrefixOf s.data

/-- An uploaded temp file: its name and its declared MIME type. -/
structure UFile where
  filename : String
  mimetype : String
deriving DecidableEq, Repr

/-- A request-body metadata field (`req.body.x`): missing, one string, or
an array of strings. -/
inductive BodyVal where
  | undef
  | str (s : String)
  | arr (l : List String)
deriving DecidableEq, Repr

/-- JavaScript `a ?? b`. -/
def coalesce : BodyVal → BodyVal → BodyVal
  | .undef, b => b
  | a, _ => a

/-- The upload request: the three multipart file arrays and the raw body
fields feeding label/title normalization (`imageLabels`, `labels`,
`labels[]`, `imageLabels[]`, `videoTitles`, `videoTitles[]`). -/
structure UploadReq where
  imagesField : List UFile
  videosField : List UFile
  fileField : List UFile
  imageLabelsF : BodyVal
  labelsF : BodyVal
  labelsLegacyF : BodyVal
  imageLabelsLegacyF : BodyVal
  videoTitlesF : BodyVal
  videoTitlesLegacyF : BodyVal
deriving Repr

/-- `req.body.imageLabels ?? req.body.labels ?? req.body["labels[]"] ?? req.body["imageLabels[]"]`. -/
def effImageLabels (r : UploadReq) : BodyVal :=
  coalesce r.imageLabelsF (coalesce r.labelsF (coalesce r.labelsLegacyF r.imageLabelsLegacyF))

/-- `req.body.videoTitles ?? req.body["videoTitles[]"]`. -/
def effVideoTitles (r : UploadReq) : BodyVal :=
  coalesce r.videoTitlesF r.videoTitlesLegacyF

/-- Lines 46-51: a single string is wrapped into a one-element array; an
array is kept; `undefined` stays `undefined`. -/
def normalizeVal : BodyVal → Option (List String)
  | .undef => none
  | .str s => some [s]
  | .arr l => some l

/-- `Array.isArray(v) ? v[i] : v` after normalization: with `v` an array
this is the (possibly out-of-range, hence optional) element at `i`; with
`v` `undefined` the metadata is absent. -/
def metaAt (v : Option (List String)) (i : Nat) : Option String :=
  match v with
  | none => none
  | some l => l[i]?

/-- Lines 66-70: `[...req.files.images, ...req.files.file.filter(f => f.mimetype.startsWith("image/"))]`. -/
def imageFilesOf (r : UploadReq) : List UFile :=
  r.imagesField ++ r.fileField.filter (fun f => strStarts f.mimetype "image/")

/-- Lines 95-99: `[...req.files.videos, ...req.files.file.filter(f => f.mimetype.startsWith("video/"))]`. -/
def videoFilesOf (r : UploadReq) : List UFile :=
  r.videosField ++ r.fileField.filter (fun f => strStarts f.mimetype "video/")

/-- The image upload loop (lines 72-92): the CDN collaborator `upl`
returns `(secure_url, public_id)`; index `i` selects the label. -/
def buildImages (upl : UFile → String × String) (labels : Option (List String)) :
    List UFile → Nat → List ImageObj
  | [], _ => []
  | f :: rest, i =>
    { url := (upl f).1, public_id := (upl f).2, label := metaAt labels i } ::
      buildImages upl labels rest (i + 1)

/-- The video upload loop (lines 101-121). -/
def buildVideos (upl : UFile → String × String) (titles : Option (List String)) :
    List UFile → Nat → List VideoObj
  | [], _ => []
  | f :: rest, i =>
    { url := (upl f).1, public_id := (upl f).2, title := metaAt titles i } ::
      buildVideos upl titles rest (i + 1)

/-- The `results` object returned by the route: per-kind lists of the
records pushed in this request. There is no error component: the route
reports nothing about files that matched neither MIME prefix. -/
structure UploadResults where
  images : List ImageObj
  videos : List VideoObj
deriving DecidableEq, Repr

/-- `POST /:folderId` minus the I/O: partition, build the records, append
to the folder's collections, return the updated folder and the results. -/
def processUpload (folder : Folder) (r : UploadReq) (upl : UFile → String × String) :
    Folder × UploadResults :=
  let imgs := buildImages upl (normalizeVal (effImageLabels r)) (imageFilesOf r) 0
  let vids := buildVideos upl (normalizeVal (effVideoTitles r)) (videoFilesOf r) 0
  ({ folder with images := folder.images ++ imgs, videos := folder.videos ++ vids },
    { images := imgs, videos := vids })

/-- A concrete CDN collaborator for closed examples: the public id is the
file name. -/
def uplDemo (f : UFile) : String × String := ("https://cdn.example/" ++ f.filename, f.filename)

/-! ## Delete media (src/routes/upload.js 166-199) -/

/-- JS `Array.prototype.findIndex`, as an optional index. -/
def findIndex (p : α → Bool) : List α → Option Nat
  | [] => none
  | a :: l => if p a then some 0 else (findIndex p l).map (· + 1)

/-- What the delete route reports. -/
inductive DeleteOutcome where
  | imageDeleted
  | videoDeleted
  | notFound
deriving DecidableEq, Repr

/-- `DELETE /:folderId/:publicId`: search `folder.images` first; on a hit,
`splice(imgIndex, 1)` and return; otherwise search `folder.videos`;
otherwise 404. -/
def deleteMedia (f : Folder) (pid : String) : Folder × DeleteOutcome :=
  match findIndex (fun i => i.public_id == pid) f.images with
  | some idx => ({ f with images := f.images.eraseIdx idx }, .imageDeleted)
  | none =>
    match findIndex (fun v => v.public_id == pid) f.videos with
    | some idx => ({ f with videos := f.videos.eraseIdx idx }, .videoDeleted)
    | none => (f, .notFound)

/-! ## Authentication gate (src/routes/auth.js 18-69) -/

/-- One `updateOne`: set `order := idx` on the first folder whose `_id`
matches. -/
def updateFirst : List Folder → String → Nat → List Folder
  | [], _, _ => []
  | f :: rest, fid, idx =>
    if f.id == fid then { f with order := some idx } :: rest
    else f :: updateFirst rest fid idx

/-- The whole `bulkWrite`: ops in `folderIds` order, the op for position
`n` setting `order := n`. -/
def applyBulk : List Folder → List String → Nat → List Folder
  | db, [], _ => db
  | db, fid :: rest, n => applyBulk (updateFirst db fid n) rest (n + 1)

/-- Rank of the optional `order` field: a missing field (null) sorts
before every set value. -/
def orderRank : Option Nat → Nat
  | none => 0
  | some v => v + 1

/-- The sort key of `.sort({ order: 1, createdAt: 1 })`. -/
def sortKey (f : Folder) : Lex (Nat × Nat) := toLex (orderRank f.order, f.createdAt)

/-- The listing order. -/
def folderLe (f g : Folder) : Prop := sortKey f ≤ sortKey g

instance : DecidableRel folderLe := fun f g => inferInstanceAs (Decidable (sortKey f ≤ sortKey g))

instance : IsTotal Folder folderLe := ⟨fun f g => le_total (sortKey f) (sortKey g)⟩

instance : IsTrans Folder folderLe := ⟨fun _ _ _ => le_trans⟩

/-- `Folder.find().sort({ order: 1, createdAt: 1 })`, as a stable sort of
the stored documents. -/
def listFolders (db : List Folder) : List Folder := db.insertionSort folderLe

/-- Pointwise description of what the bulk write does to one folder, used
to characterize `applyBulk`. -/
def bulkAssign (ids : List String) (n : Nat) (f : Folder) : Folder :=
  if ids.contains f.id then { f with order := some (n + ids.indexOf f.id) } else f

/-- What one `updateOne` does pointwise when the stored ids are unique. -/
def setOrd (fid : String) (v : Nat) (f : Folder) : Folder :=
  if f.id == fid then { f with order := some v } else f

/-! ## Concrete fixtures and statement helpers -/

/-- The metadata list produced when the body field is a single string
`s`: position 0 of the kind partition gets `s`, everyone else absent. -/
def labelPattern (n : Nat) (s : String) : List (Option String) :=
  match n with
  | 0 => []
  | m + 1 => some s :: List.replicate m none

/-- The declared MIME type matches one of the two recognized kinds. -/
def isMediaMime (m : String) : Bool := strStarts m "image/" || strStarts m "video/"

/-- An upload request with no files and every body field undefined. -/
def baseReq : UploadReq := ⟨[], [], [], .undef, .undef, .undef, .undef, .undef, .undef⟩

/-- An empty folder fixture. -/
def folder0 : Folder := ⟨"f1", "F", [], [], none, 0⟩

/-- Fixture for C4: two images and one video under their named fields,
with single-string `imageLabels` and `videoTitles`. -/
def c4Req : UploadReq :=
  { baseReq with
    imagesField := [⟨"A", "image/png"⟩, ⟨"B", "image/png"⟩]
    videosField := [⟨"V", "video/mp4"⟩]
    imageLabelsF := .str "L"
    videoTitlesF := .str "T" }

/-- Fixture for C4: an image-only request with a single-string label and
video titles left undefined. -/
def c4ReqB : UploadReq :=
  { baseReq with
    imagesField := [⟨"A", "image/png"⟩, ⟨"B", "image/png"⟩]
    imageLabelsF := .str "L" }

/-- Fixture for C5: the spec's batch `[fileA(image), fileB(video),
fileC(image)]` sent under the generic `file` field, with the metadata
list `["L1", "L2"]` as the image-labels field. -/
def c5Req : UploadReq :=
  { baseReq with
    fileField := [⟨"A", "image/png"⟩, ⟨"B", "video/mp4"⟩, ⟨"C", "image/jpeg"⟩]
    imageLabelsF := .arr ["L1", "L2"] }

/-- Fixture for C6: a single generic-field file matching neither MIME
prefix. -/
def c6Req : UploadReq := { baseReq with fileField := [⟨"D", "application/pdf"⟩] }

/-- Fixture for C6's witness: one image and one unclassifiable file under
the generic field. -/
def c6Req2 : UploadReq :=
  { baseReq with fileField := [⟨"A", "image/png"⟩, ⟨"D", "application/pdf"⟩] }

/-- Delete fixture: the public id `"p"` occurs in *both* collections. -/
def c10Folder : Folder :=
  ⟨"f2", "G", [⟨"iu1", "x", none⟩, ⟨"iu2", "p", none⟩], [⟨"vu1", "p", none⟩], none, 0⟩

/-- Delete fixture: the public id `"p"` occurs only among the videos. -/
def c10FolderV : Folder :=
  ⟨"f3", "H", [⟨"iu1", "x", none⟩], [⟨"vu1", "p", none⟩, ⟨"vu2", "q", none⟩], none, 0⟩

/-- Folder-reorder fixture: three folders, no `order` field set yet,
distinct creation times. -/
def c8Db : List Folder :=
  [⟨"a", "A", [], [], none, 3⟩, ⟨"b", "B", [], [], none, 1⟩, ⟨"c", "C", [], [], none, 2⟩]

end Kooyapady

namespace Kooyapady

-- sanity checks against the spec's worked examples (§8)
example :
    reconcile ImageObj.public_id
      [⟨"u1", "a", none⟩, ⟨"u2", "b", none⟩, ⟨"u3", "c", none⟩] ["c", "a"] =
      [⟨"u3", "c", none⟩, ⟨"u1", "a", none⟩, ⟨"u2", "b", none⟩] := by decide

example :
    reconcile ImageObj.public_id [⟨"u1", "a", none⟩, ⟨"u2", "b", none⟩] [] =
      [⟨"u1", "a", none⟩, ⟨"u2", "b", none⟩] := by decide

-- duplicate ids in the desired order duplicate the entry
example :
    reconcile ImageObj.public_id [⟨"u1", "a", none⟩] ["a", "a"] =
      [⟨"u1", "a", none⟩, ⟨"u1", "a", none⟩] := by decide

/-! ## Reconciler lemmas -/

theorem mapLookup_key_eq {key : α → String} {l : List α} {pid : String} {e : α}
    (h : mapLookup key l pid = some e) : key e = pid := by
  rw [mapLookup] at h
  have hm : e ∈ l.filter (fun x => key x == pid) := List.mem_of_getLast?_eq_some h
  have hb := (List.mem_filter.mp hm).2
  exact eq_of_beq hb

theorem mapLookup_mem {key : α → String} {l : List α} {pid : String} {e : α}
    (h : mapLookup key l pid = some e) : e ∈ l := by
  rw [mapLookup] at h
  exact List.mem_of_mem_filter (List.mem_of_getLast?_eq_some h)

theorem filter_key_self {key : α → String} {l : List α} (hnd : (l.map key).Nodup)
    {e : α} (he : e ∈ l) : l.filter (fun x => key x == key e) = [e] := by
  induction l with
  | nil => cases he
  | cons a t ih =>
    rw [List.map_cons, List.nodup_cons] at hnd
    rcases List.mem_cons.mp he with rfl | het
    · have ht : t.filter (fun x => key x == key e) = [] := by
        rw [List.filter_eq_nil_iff]
        intro x hx hbeq
        apply hnd.1
        rw [← eq_of_beq hbeq]
        exact List.mem_map_of_mem key hx
      rw [List.filter_cons_of_pos (by simp), ht]
    · have hne : (key a == key e) = false := by
        rw [beq_eq_false_iff_ne]
        intro hEq
        apply hnd.1
        rw [hEq]
        exact List.mem_map_of_mem key het
      rw [List.filter_cons_of_neg (by simp [hne])]
      exact ih hnd.2 het

theorem mapLookup_self {key : α → String} {l : List α} (hnd : (l.map key).Nodup)
    {e : α} (he : e ∈ l) : mapLookup key l (key e) = some e := by
  rw [mapLookup, filter_key_self hnd he]
  rfl

theorem getLast?_eq_some_of_all_eq {l : List α} {e : α} (hne : l ≠ []) (h : ∀ x ∈ l, x = e) :
    l.getLast? = some e := by
  induction l with
  | nil => exact absurd rfl hne
  | cons a t ih =>
    cases t with
    | nil => simpa using h a (List.mem_cons_self a [])
    | cons b t2 =>
      rw [List.getLast?_cons_cons]
      exact ih (List.cons_ne_nil _ _) fun x hx => h x (List.mem_cons_of_mem a hx)

theorem countP_mapLookup {key : α → String} [DecidableEq α] (c : List α) (a : α)
    (o : List String) :
    o.countP (fun pid => mapLookup key c pid == some a) =
      if mapLookup key c (key a) = some a then o.count (key a) else 0 := by
  by_cases h : mapLookup key c (key a) = some a
  · rw [if_pos h, List.count_eq_countP]
    apply List.countP_congr
    intro pid _
    constructor
    · intro hb
      exact beq_of_eq (mapLookup_key_eq (eq_of_beq hb)).symm
    · intro hb
      rw [eq_of_beq hb]
      exact beq_of_eq h
  · rw [if_neg h, List.countP_eq_zero]
    intro pid _ hb
    have heq := eq_of_beq hb
    exact h ((mapLookup_key_eq heq) ▸ heq)

theorem count_filter_not_mem_order {key : α → String} [DecidableEq α] (c : List α) (a : α)
    (o : List String) :
    (c.filter (fun e => !(o.contains (key e)))).count a =
      if key a ∈ o then 0 else c.count a := by
  by_cases h : key a ∈ o
  · rw [if_pos h, List.count_eq_zero]
    intro hmem
    have hp := List.of_mem_filter hmem
    simp only [List.contains, Bool.not_eq_true', ← Bool.not_eq_true, List.elem_iff] at hp
    exact hp h
  · rw [if_neg h]
    apply List.count_filter
    simp only [List.contains, Bool.not_eq_true', ← Bool.not_eq_true, List.elem_iff]
    exact h

theorem filterMap_eq_self_of_all_some {f : α → Option α} :
    ∀ {l : List α}, (∀ a ∈ l, f a = some a) → l.filterMap f = l := by
  intro l
  induction l with
  | nil => intro _; rfl
  | cons a t ih =>
    intro h
    rw [List.filterMap_cons, h a (List.mem_cons_self a t),
      ih fun x hx => h x (List.mem_cons_of_mem a hx)]

theorem filterMap_congr_mem {f g : α → Option β} :
    ∀ {l : List α}, (∀ a ∈ l, f a = g a) → l.filterMap f = l.filterMap g := by
  intro l
  induction l with
  | nil => intro _; rfl
  | cons a t ih =>
    intro h
    rw [List.filterMap_cons, List.filterMap_cons, h a (List.mem_cons_self a t),
      ih fun x hx => h x (List.mem_cons_of_mem a hx)]

/-! ## Claims C1, C2, C3 -/

/-- C1 (counterexample): the reconciler is *not* a permutation for every
`desiredOrder`: with the single-entry collection keyed `"a"` and the
desired order `["a", "a"]`, the entry is emitted twice, because the code
never marks a map entry as consumed, so the result is not a permutation
of the input. -/
theorem c1_reconcile_dup_counterexample :
    reconcile ImageObj.public_id [⟨"u1", "a", none⟩] ["a", "a"] =
        [⟨"u1", "a", none⟩, ⟨"u1", "a", none⟩] ∧
      ¬ (reconcile ImageObj.public_id [⟨"u1", "a", none⟩] ["a", "a"]).Perm
          [⟨"u1", "a", none⟩] := by
  constructor
  · decide
  · decide

/-- C1 (amended): when the entries of `current` have pairwise-distinct
keys *and `desiredOrder` contains no duplicate ids* (unknown ids and
partial lists still allowed), the reconciler returns a permutation of
`current`: every entry appears exactly once, none duplicated or dropped. -/
theorem c1_reconcile_perm_of_nodup_order {α} [DecidableEq α] (key : α → String)
    (current : List α) (order : List String) (hkeys : (current.map key).Nodup)
    (horder : order.Nodup) : (reconcile key current order).Perm current := by
  rw [List.perm_iff_count]
  intro a
  rw [reconcile, List.count_append, List.count_filterMap, countP_mapLookup,
    count_filter_not_mem_order]
  by_cases hmem : a ∈ current
  · have hself := mapLookup_self hkeys hmem
    rw [if_pos hself]
    have hc1 : current.count a = 1 := List.count_eq_one_of_mem (List.Nodup.of_map key hkeys) hmem
    by_cases ho : key a ∈ order
    · rw [if_pos ho, List.count_eq_one_of_mem horder ho, hc1]
    · rw [if_neg ho, List.count_eq_zero_of_not_mem ho, hc1]
  · have hnl : ¬ mapLookup key current (key a) = some a := fun h => hmem (mapLookup_mem h)
    rw [if_neg hnl, List.count_eq_zero_of_not_mem hmem]
    split <;> rfl

/-- C1 (witness): the amended permutation theorem evaluated on a concrete
two-image collection and a duplicate-free partial order. -/
theorem c1_reconcile_perm_witness :
    (([⟨"u1", "a", none⟩, ⟨"u2", "b", none⟩] : List ImageObj).map ImageObj.public_id).Nodup ∧
      (["b", "zz"] : List String).Nodup ∧
      (reconcile ImageObj.public_id [⟨"u1", "a", none⟩, ⟨"u2", "b", none⟩] ["b", "zz"]).Perm
        [⟨"u1", "a", none⟩, ⟨"u2", "b", none⟩] :=
  ⟨by decide, by decide,
    c1_reconcile_perm_of_nodup_order ImageObj.public_id _ _ (by decide) (by decide)⟩

/-- C2: reconciling a uniquely-keyed collection with its own key sequence
reversed returns the collection fully reversed. -/
theorem c2_reconcile_reverse {α} (key : α → String) (current : List α)
    (hkeys : (current.map key).Nodup) :
    reconcile key current ((current.map key).reverse) = current.reverse := by
  rw [reconcile]
  have h2 : current.filter (fun e => !(((current.map key).reverse).contains (key e))) = [] := by
    rw [List.filter_eq_nil_iff]
    intro e he hb
    have hm : key e ∈ (current.map key).reverse :=
      List.mem_reverse.mpr (List.mem_map_of_mem key he)
    simp only [List.contains, Bool.not_eq_true', ← Bool.not_eq_true, List.elem_iff] at hb
    exact hb hm
  rw [h2, List.append_nil, List.filterMap_reverse, List.filterMap_map]
  congr 1
  exact filterMap_eq_self_of_all_some fun e he => mapLookup_self hkeys he

/-- C2 (witness): the reversal theorem evaluated on a concrete
three-entry collection. -/
theorem c2_reconcile_reverse_witness :
    (([⟨"u1", "a", none⟩, ⟨"u2", "b", none⟩, ⟨"u3", "c", none⟩] : List ImageObj).map
        ImageObj.public_id).Nodup ∧
      reconcile ImageObj.public_id
          [⟨"u1", "a", none⟩, ⟨"u2", "b", none⟩, ⟨"u3", "c", none⟩]
          ((([⟨"u1", "a", none⟩, ⟨"u2", "b", none⟩, ⟨"u3", "c", none⟩] : List ImageObj).map
            ImageObj.public_id).reverse) =
        [⟨"u3", "c", none⟩, ⟨"u2", "b", none⟩, ⟨"u1", "a", none⟩] :=
  ⟨by decide, c2_reconcile_reverse ImageObj.public_id _ (by decide)⟩

theorem mapLookup_reconcile_eq {key : α → String} (c : List α) (o : List String)
    {pid : String} (hpid : pid ∈ o) :
    mapLookup key (reconcile key c o) pid = mapLookup key c pid := by
  rw [reconcile, mapLookup, List.filter_append]
  have hB : (c.filter (fun e => !(o.contains (key e)))).filter
      (fun x => key x == pid) = [] := by
    rw [List.filter_filter, List.filter_eq_nil_iff]
    intro x _ hb
    simp only [Bool.and_eq_true, beq_iff_eq, Bool.not_eq_true', List.contains,
      ← Bool.not_eq_true, List.elem_iff] at hb
    exact hb.2 (hb.1 ▸ hpid)
  rw [hB, List.append_nil]
  cases h : mapLookup key c pid with
  | none =>
    have hA : (o.filterMap (mapLookup key c)).filter (fun x => key x == pid) = [] := by
      rw [List.filter_eq_nil_iff]
      intro x hx hb
      obtain ⟨pid2, _, hlk⟩ := List.mem_filterMap.mp hx
      have hk := mapLookup_key_eq hlk
      have hpp : pid2 = pid := by
        rw [← hk]
        exact eq_of_beq hb
      rw [hpp, h] at hlk
      cases hlk
    rw [hA]
    rfl
  | some e =>
    apply getLast?_eq_some_of_all_eq
    · apply List.ne_nil_of_mem (a := e)
      rw [List.mem_filter]
      exact ⟨List.mem_filterMap.mpr ⟨pid, hpid, h⟩, beq_of_eq (mapLookup_key_eq h)⟩
    · intro x hx
      rw [List.mem_filter] at hx
      obtain ⟨hxA, hxk⟩ := hx
      obtain ⟨pid2, _, hlk⟩ := List.mem_filterMap.mp hxA
      have hk := mapLookup_key_eq hlk
      have hpp : pid2 = pid := by
        rw [← hk]
        exact eq_of_beq hxk
      rw [hpp, h] at hlk
      exact (Option.some.inj hlk).symm

/-- C3: applying the reconciler twice with the same desired order equals
applying it once (for a uniquely-keyed `current`, as the claim assumes;
the proof in fact never needs the hypothesis). -/
theorem c3_reconcile_idem {α} (key : α → String) (current : List α) (order : List String)
    (_hkeys : (current.map key).Nodup) :
    reconcile key (reconcile key current order) order = reconcile key current order := by
  conv_lhs => rw [reconcile]
  have h1 : order.filterMap (mapLookup key (reconcile key current order)) =
      order.filterMap (mapLookup key current) :=
    filterMap_congr_mem fun pid hpid => mapLookup_reconcile_eq current order hpid
  have h2 : (reconcile key current order).filter (fun e => !(order.contains (key e))) =
      current.filter (fun e => !(order.contains (key e))) := by
    rw [reconcile, List.filter_append]
    have hA : (order.filterMap (mapLookup key current)).filter
        (fun e => !(order.contains (key e))) = [] := by
      rw [List.filter_eq_nil_iff]
      intro x hx hb
      obtain ⟨pid, hpid, hlk⟩ := List.mem_filterMap.mp hx
      have hk := mapLookup_key_eq hlk
      simp only [Bool.not_eq_true', List.contains, ← Bool.not_eq_true, List.elem_iff] at hb
      exact hb (hk ▸ hpid)
    rw [hA, List.nil_append, List.filter_filter]
    apply List.filter_congr
    intro x _
    exact Bool.and_self _
  rw [h1, h2]
  rfl

/-! ## Claims C4, C5, C6 -/

theorem buildImages_singleton_tail (upl : UFile → String × String) (s : String) :
    ∀ (files : List UFile) (i : Nat), 1 ≤ i →
      (buildImages upl (some [s]) files i).map ImageObj.label =
        List.replicate files.length none := by
  intro files
  induction files with
  | nil => intro i _; rfl
  | cons f rest ih =>
    intro i hi
    rw [buildImages, List.map_cons, List.length_cons, List.replicate_succ]
    have hm : metaAt (some [s]) i = none := by
      rw [metaAt]
      exact List.getElem?_eq_none (by simpa using hi)
    rw [hm]
    exact congrArg (none :: ·) (ih (i + 1) (Nat.le_succ_of_le hi))

theorem buildImages_singleton (upl : UFile → String × String) (s : String)
    (files : List UFile) :
    (buildImages upl (some [s]) files 0).map ImageObj.label =
      labelPattern files.length s := by
  cases files with
  | nil => rfl
  | cons f rest =>
    rw [buildImages, List.map_cons, List.length_cons, labelPattern]
    exact congrArg (some s :: ·) (buildImages_singleton_tail upl s rest 1 (Nat.le_refl 1))

theorem buildVideos_singleton_tail (upl : UFile → String × String) (s : String) :
    ∀ (files : List UFile) (i : Nat), 1 ≤ i →
      (buildVideos upl (some [s]) files i).map VideoObj.title =
        List.replicate files.length none := by
  intro files
  induction files with
  | nil => intro i _; rfl
  | cons f rest ih =>
    intro i hi
    rw [buildVideos, List.map_cons, List.length_cons, List.replicate_succ]
    have hm : metaAt (some [s]) i = none := by
      rw [metaAt]
      exact List.getElem?_eq_none (by simpa using hi)
    rw [hm]
    exact congrArg (none :: ·) (ih (i + 1) (Nat.le_succ_of_le hi))

theorem buildVideos_singleton (upl : UFile → String × String) (s : String)
    (files : List UFile) :
    (buildVideos upl (some [s]) files 0).map VideoObj.title =
      labelPattern files.length s := by
  cases files with
  | nil => rfl
  | cons f rest =>
    rw [buildVideos, List.map_cons, List.length_cons, labelPattern]
    exact congrArg (some s :: ·) (buildVideos_singleton_tail upl s rest 1 (Nat.le_refl 1))

/-- C4: whenever the image-labels body input is a single string, exactly
the file at position 0 of the image partition receives it as its label
and every other image gets absent metadata — and independently the same
for a single-string video-titles input over the video partition. Each
conjunct assumes only its own metadata input, so either may be applied
alone (e.g. to an image-only request with no video titles). -/
theorem c4_single_string_metadata (folder : Folder) (r : UploadReq)
    (upl : UFile → String × String) :
    (∀ s, effImageLabels r = .str s →
        (processUpload folder r upl).2.images.map ImageObj.label =
          labelPattern (imageFilesOf r).length s) ∧
      (∀ t, effVideoTitles r = .str t →
        (processUpload folder r upl).2.videos.map VideoObj.title =
          labelPattern (videoFilesOf r).length t) := by
  constructor
  · intro s hs
    show (buildImages upl (normalizeVal (effImageLabels r)) (imageFilesOf r) 0).map
      ImageObj.label = _
    rw [hs]
    exact buildImages_singleton upl s (imageFilesOf r)
  · intro t ht
    show (buildVideos upl (normalizeVal (effVideoTitles r)) (videoFilesOf r) 0).map
      VideoObj.title = _
    rw [ht]
    exact buildVideos_singleton upl t (videoFilesOf r)

/-- C4 (witness): the single-string rule applied to an image-only request
whose video titles are absent (only the image conjunct's hypothesis
holds), and the video conjunct applied to a mixed request; the resulting
metadata lists are evaluated. -/
theorem c4_single_string_metadata_witness :
    effImageLabels c4ReqB = .str "L" ∧ effVideoTitles c4ReqB = .undef ∧
      (processUpload folder0 c4ReqB uplDemo).2.images.map ImageObj.label =
        labelPattern (imageFilesOf c4ReqB).length "L" ∧
      (processUpload folder0 c4ReqB uplDemo).2.images.map ImageObj.label =
        [some "L", none] ∧
      effVideoTitles c4Req = .str "T" ∧
      (processUpload folder0 c4Req uplDemo).2.videos.map VideoObj.title =
        labelPattern (videoFilesOf c4Req).length "T" :=
  ⟨rfl, rfl,
    (c4_single_string_metadata folder0 c4ReqB uplDemo).1 "L" rfl,
    by decide,
    rfl,
    (c4_single_string_metadata folder0 c4Req uplDemo).2 "T" rfl⟩

/-- C5 (counterexample): on the batch `[A(image), B(video), C(image)]`
with image metadata list `["L1", "L2"]`, the code zips within the image
partition `[A, C]`, so `C` receives `"L2"` — not absent metadata as the
claim's expected output states. -/
theorem c5_within_kind_counterexample :
    (processUpload folder0 c5Req uplDemo).2.images.map ImageObj.label ≠
        [some "L1", none] ∧
      (processUpload folder0 c5Req uplDemo).2.images.map ImageObj.label =
        [some "L1", some "L2"] := by
  constructor
  · decide
  · decide

/-- C5 (amended): normalizing that batch yields images
`[(A, "L1"), (C, "L2")]` and videos `[(B, absent)]`: metadata is zipped
positionally within each kind's partition (so the second label lands on
the second image `C`), not across the combined file list. -/
theorem c5_within_kind_zip :
    (processUpload folder0 c5Req uplDemo).2 =
      { images := [⟨"https://cdn.example/A", "A", some "L1"⟩,
                   ⟨"https://cdn.example/C", "C", some "L2"⟩],
        videos := [⟨"https://cdn.example/B", "B", none⟩] } := by decide

/-- C6 (counterexample): a generic-field file matching neither MIME
prefix is dropped *silently*: the route's entire outcome (updated folder
and results object) on the one-pdf batch is identical to the outcome on
the empty batch, so no per-file error is reported anywhere in the
result, contrary to the claim. -/
theorem c6_silent_drop_counterexample :
    processUpload folder0 c6Req uplDemo = processUpload folder0 baseReq uplDemo := by
  decide

/-- C6 (amended): a generic-field file with MIME prefix `image/` is
classified as an image and one with `video/` as a video; files matching
neither are silently dropped — removing them from the batch leaves the
route's outcome unchanged, and the remaining files are still processed
(no fatal failure, but also no per-file error report). -/
theorem c6_classification_and_silent_drop (folder : Folder) (r : UploadReq)
    (upl : UFile → String × String) :
    processUpload folder r upl =
        processUpload folder
          { r with fileField := r.fileField.filter (fun f => isMediaMime f.mimetype) } upl ∧
      (∀ f ∈ r.fileField, strStarts f.mimetype "image/" = true → f ∈ imageFilesOf r) ∧
      (∀ f ∈ r.fileField, strStarts f.mimetype "video/" = true → f ∈ videoFilesOf r) := by
  refine ⟨?_, ?_, ?_⟩
  · have himg : imageFilesOf
        { r with fileField := r.fileField.filter (fun f => isMediaMime f.mimetype) } =
        imageFilesOf r := by
      rw [imageFilesOf, imageFilesOf, List.filter_filter]
      congr 1
      apply List.filter_congr
      intro f _
      cases hp : strStarts f.mimetype "image/" <;> simp [isMediaMime, hp]
    have hvid : videoFilesOf
        { r with fileField := r.fileField.filter (fun f => isMediaMime f.mimetype) } =
        videoFilesOf r := by
      rw [videoFilesOf, videoFilesOf, List.filter_filter]
      congr 1
      apply List.filter_congr
      intro f _
      cases hp : strStarts f.mimetype "video/" <;> simp [isMediaMime, hp]
    rw [processUpload, processUpload, himg, hvid]
    rfl
  · intro f hf hp
    rw [imageFilesOf]
    exact List.mem_append_right _ (List.mem_filter.mpr ⟨hf, hp⟩)
  · intro f hf hp
    rw [videoFilesOf]
    exact List.mem_append_right _ (List.mem_filter.mpr ⟨hf, hp⟩)

/-- C6 (witness): on a batch holding one png and one pdf under the
generic field, dropping the pdf leaves the outcome unchanged and the png
is classified as an image. -/
theorem c6_classification_witness :
    processUpload folder0 c6Req2 uplDemo =
        processUpload folder0
          { c6Req2 with
            fileField := c6Req2.fileField.filter (fun f => isMediaMime f.mimetype) }
          uplDemo ∧
      (⟨"A", "image/png"⟩ : UFile) ∈ imageFilesOf c6Req2 :=
  ⟨(c6_classification_and_silent_drop folder0 c6Req2 uplDemo).1,
    (c6_classification_and_silent_drop folder0 c6Req2 uplDemo).2.1
      ⟨"A", "image/png"⟩ (by decide) (by decide)⟩

/-! ## Claim C7 -/

/-- C9: in the per-folder reorder, a non-array `videosOrder` leaves the
videos sequence exactly unchanged (and symmetrically for `imagesOrder`
and the images sequence), and no field of the folder other than the
supplied collection(s) is modified. -/
theorem c9_reorder_frame (f : Folder) (io vo : List String)
    (oio ovo : Option (List String)) :
    (reorderMedia f (some io) none).videos = f.videos ∧
      (reorderMedia f none (some vo)).images = f.images ∧
      (reorderMedia f oio ovo).name = f.name ∧
      (reorderMedia f oio ovo).id = f.id ∧
      (reorderMedia f oio ovo).order = f.order ∧
      (reorderMedia f oio ovo).createdAt = f.createdAt := by
  refine ⟨rfl, rfl, ?_, ?_, ?_, ?_⟩ <;>
    (unfold reorderMedia; cases oio <;> cases ovo <;> rfl)

/-! ## Claim C10 -/

theorem findIndex_eq_none_iff (p : α → Bool) :
    ∀ l : List α, findIndex p l = none ↔ ∀ x ∈ l, p x = false := by
  intro l
  induction l with
  | nil => simp [findIndex]
  | cons a t ih =>
    rw [findIndex]
    by_cases hp : p a
    · simp [hp]
    · simp only [if_neg hp, Option.map_eq_none', ih, List.mem_cons]
      constructor
      · intro h x hx
        rcases hx with rfl | hx
        · exact Bool.not_eq_true _ ▸ hp
        · exact h x hx
      · intro h x hx
        exact h x (Or.inr hx)

theorem findIndex_some_decomp (p : α → Bool) :
    ∀ (l : List α) (i : Nat), findIndex p l = some i →
      ∃ pre e post, l = pre ++ e :: post ∧ pre.length = i ∧ p e = true ∧
        (∀ x ∈ pre, p x = false) ∧ l.eraseIdx i = pre ++ post := by
  intro l
  induction l with
  | nil => intro i h; simp [findIndex] at h
  | cons a t ih =>
    intro i h
    rw [findIndex] at h
    by_cases hp : p a
    · rw [if_pos hp] at h
      obtain rfl : 0 = i := Option.some.inj h
      exact ⟨[], a, t, rfl, rfl, hp, fun x hx => absurd hx (List.not_mem_nil x), rfl⟩
    · rw [if_neg hp] at h
      cases hj : findIndex p t with
      | none => rw [hj] at h; cases h
      | some j =>
        rw [hj] at h
        obtain rfl : j + 1 = i := Option.some.inj h
        obtain ⟨pre, e, post, hl, hlen, hpe, hpre, herase⟩ := ih j hj
        refine ⟨a :: pre, e, post, by rw [hl]; rfl, by simp [hlen], hpe, ?_, ?_⟩
        · intro x hx
          rcases List.mem_cons.mp hx with rfl | hx
          · exact Bool.not_eq_true _ ▸ hp
          · exact hpre x hx
        · rw [List.eraseIdx_cons_succ, herase]
          rfl

/-- C10: the delete operation searches images before videos: when the
public id occurs among the images it removes exactly the first matching
image entry and leaves the videos untouched (even if a video also
matches); a video entry is removed only when no image matches; when
neither collection contains the id the folder is returned unchanged with
a not-found outcome. -/
theorem c10_delete_searches_images_first (f : Folder) (pid : String) :
    ((∃ e ∈ f.images, e.public_id = pid) →
        (deleteMedia f pid).2 = .imageDeleted ∧
        (deleteMedia f pid).1.videos = f.videos ∧
        ∃ pre e post, f.images = pre ++ e :: post ∧ e.public_id = pid ∧
          (∀ x ∈ pre, x.public_id ≠ pid) ∧
          (deleteMedia f pid).1.images = pre ++ post) ∧
      ((∀ e ∈ f.images, e.public_id ≠ pid) → (∃ v ∈ f.videos, v.public_id = pid) →
        (deleteMedia f pid).2 = .videoDeleted ∧
        (deleteMedia f pid).1.images = f.images ∧
        ∃ pre v post, f.videos = pre ++ v :: post ∧ v.public_id = pid ∧
          (∀ x ∈ pre, x.public_id ≠ pid) ∧
          (deleteMedia f pid).1.videos = pre ++ post) ∧
      ((∀ e ∈ f.images, e.public_id ≠ pid) → (∀ v ∈ f.videos, v.public_id ≠ pid) →
        deleteMedia f pid = (f, .notFound)) := by
  refine ⟨?_, ?_, ?_⟩
  · rintro ⟨e0, he0, hpe0⟩
    have hne : findIndex (fun i => i.public_id == pid) f.images ≠ none := by
      intro hnone
      rw [findIndex_eq_none_iff] at hnone
      have := hnone e0 he0
      rw [beq_eq_false_iff_ne] at this
      exact this hpe0
    cases himg : findIndex (fun i => i.public_id == pid) f.images with
    | none => exact absurd himg hne
    | some idx =>
      obtain ⟨pre, e, post, hl, _, hpe, hpre, herase⟩ :=
        findIndex_some_decomp _ f.images idx himg
      have hd : deleteMedia f pid =
          ({ f with images := f.images.eraseIdx idx }, .imageDeleted) := by
        unfold deleteMedia
        rw [himg]
      refine ⟨by rw [hd], by rw [hd], pre, e, post, hl, eq_of_beq hpe, ?_, ?_⟩
      · intro x hx
        have := hpre x hx
        rwa [beq_eq_false_iff_ne] at this
      · rw [hd]
        exact herase
  · intro hnoimg
    rintro ⟨v0, hv0, hpv0⟩
    have himg : findIndex (fun i => i.public_id == pid) f.images = none := by
      rw [findIndex_eq_none_iff]
      intro x hx
      rw [beq_eq_false_iff_ne]
      exact hnoimg x hx
    have hne : findIndex (fun v => v.public_id == pid) f.videos ≠ none := by
      intro hnone
      rw [findIndex_eq_none_iff] at hnone
      have := hnone v0 hv0
      rw [beq_eq_false_iff_ne] at this
      exact this hpv0
    cases hvid : findIndex (fun v => v.public_id == pid) f.videos with
    | none => exact absurd hvid hne
    | some idx =>
      obtain ⟨pre, v, post, hl, _, hpv, hpre, herase⟩ :=
        findIndex_some_decomp _ f.videos idx hvid
      have hd : deleteMedia f pid =
          ({ f with videos := f.videos.eraseIdx idx }, .videoDeleted) := by
        unfold deleteMedia
        rw [himg, hvid]
      refine ⟨by rw [hd], by rw [hd], pre, v, post, hl, eq_of_beq hpv, ?_, ?_⟩
      · intro x hx
        have := hpre x hx
        rwa [beq_eq_false_iff_ne] at this
      · rw [hd]
        exact herase
  · intro hnoimg hnovid
    have himg : findIndex (fun i => i.public_id == pid) f.images = none := by
      rw [findIndex_eq_none_iff]
      intro x hx
      rw [beq_eq_false_iff_ne]
      exact hnoimg x hx
    have hvid : findIndex (fun v => v.public_id == pid) f.videos = none := by
      rw [findIndex_eq_none_iff]
      intro x hx
      rw [beq_eq_false_iff_ne]
      exact hnovid x hx
    unfold deleteMedia
    rw [himg, hvid]

/-- C10 (witness): the delete behavior evaluated on a folder whose id
`"p"` occurs in both collections (an image is removed, videos stay), on a
folder where only a video matches, and on a miss. -/
theorem c10_delete_witness :
    ((deleteMedia c10Folder "p").2 = .imageDeleted ∧
        (deleteMedia c10Folder "p").1.videos = c10Folder.videos) ∧
      ((deleteMedia c10FolderV "p").2 = .videoDeleted ∧
        (deleteMedia c10FolderV "p").1.images = c10FolderV.images) ∧
      deleteMedia c10Folder "zz" = (c10Folder, .notFound) :=
  ⟨⟨((c10_delete_searches_images_first c10Folder "p").1
        ⟨⟨"iu2", "p", none⟩, by decide, rfl⟩).1,
      ((c10_delete_searches_images_first c10Folder "p").1
        ⟨⟨"iu2", "p", none⟩, by decide, rfl⟩).2.1⟩,
    ⟨((c10_delete_searches_images_first c10FolderV "p").2.1 (by decide)
        ⟨⟨"vu1", "p", none⟩, by decide, rfl⟩).1,
      ((c10_delete_searches_images_first c10FolderV "p").2.1 (by decide)
        ⟨⟨"vu1", "p", none⟩, by decide, rfl⟩).2.1⟩,
    (c10_delete_searches_images_first c10Folder "zz").2.2 (by decide) (by decide)⟩

/-! ## Claim C8 -/

theorem contains_false_of_not_mem {α} [BEq α] [LawfulBEq α] {a : α} {l : List α}
    (h : a ∉ l) : l.contains a = false := by
  cases hc : l.contains a
  · rfl
  · exact absurd (List.elem_iff.mp hc) h

theorem setOrd_id (fid : String) (v : Nat) (f : Folder) : (setOrd fid v f).id = f.id := by
  rw [setOrd]
  split <;> rfl

theorem bulkAssign_id (ids : List String) (n : Nat) (f : Folder) :
    (bulkAssign ids n f).id = f.id := by
  rw [bulkAssign]
  split <;> rfl

theorem updateFirst_eq_map {db : List Folder} (hnd : (db.map Folder.id).Nodup)
    (fid : String) (v : Nat) : updateFirst db fid v = db.map (setOrd fid v) := by
  induction db with
  | nil => rfl
  | cons f rest ih =>
    rw [List.map_cons, List.nodup_cons] at hnd
    rw [updateFirst, List.map_cons]
    by_cases h : (f.id == fid) = true
    · rw [if_pos h]
      have hmem : ∀ g ∈ rest, setOrd fid v g = g := by
        intro g hg
        have hne : (g.id == fid) = false := by
          rw [beq_eq_false_iff_ne]
          intro hEq
          apply hnd.1
          rw [eq_of_beq h, ← hEq]
          exact List.mem_map_of_mem Folder.id hg
        rw [setOrd, if_neg (by simp [hne])]
      rw [List.map_congr_left hmem, List.map_id', setOrd, if_pos h]
    · rw [if_neg h, ih hnd.2, setOrd, if_neg (by simp [h])]

theorem updateFirst_map_id (fid : String) (v : Nat) :
    ∀ db : List Folder, (updateFirst db fid v).map Folder.id = db.map Folder.id := by
  intro db
  induction db with
  | nil => rfl
  | cons f rest ih =>
    rw [updateFirst]
    by_cases h : (f.id == fid) = true
    · rw [if_pos h]
      rfl
    · rw [if_neg h, List.map_cons, List.map_cons, ih]

theorem bulkAssign_setOrd (fid : String) (rest : List String) (n : Nat)
    (hnotin : fid ∉ rest) (f : Folder) :
    bulkAssign rest (n + 1) (setOrd fid n f) = bulkAssign (fid :: rest) n f := by
  by_cases h : (f.id == fid) = true
  · have hfid : f.id = fid := eq_of_beq h
    simp [bulkAssign, setOrd, h, hfid, hnotin, List.indexOf_cons_self]
  · have hfid : f.id ≠ fid := by
      rw [← beq_eq_false_iff_ne]
      simpa using h
    have hidx : List.indexOf f.id (fid :: rest) = List.indexOf f.id rest + 1 :=
      List.indexOf_cons_ne rest (Ne.symm hfid)
    by_cases hm : f.id ∈ rest
    · have harith : n + 1 + List.indexOf f.id rest = n + (List.indexOf f.id rest + 1) := by
        omega
      simp [bulkAssign, setOrd, h, hfid, hm, hidx, harith]
    · simp [bulkAssign, setOrd, h, hfid, hm]

theorem applyBulk_eq_map :
    ∀ (ids : List String) (db : List Folder) (n : Nat), ids.Nodup →
      (db.map Folder.id).Nodup → applyBulk db ids n = db.map (bulkAssign ids n) := by
  intro ids
  induction ids with
  | nil =>
    intro db n _ _
    rw [applyBulk]
    have hmem : ∀ f ∈ db, bulkAssign [] n f = id f := by
      intro f _
      simp [bulkAssign]
    rw [List.map_congr_left hmem, List.map_id]
  | cons fid rest ih =>
    intro db n hids hdb
    rw [List.nodup_cons] at hids
    rw [applyBulk,
      ih (updateFirst db fid n) (n + 1) hids.2 (by rw [updateFirst_map_id]; exact hdb),
      updateFirst_eq_map hdb, List.map_map]
    exact List.map_congr_left fun f _ => bulkAssign_setOrd fid rest n hids.1 f

theorem filter_bulkAssign (ids : List String) (n : Nat) :
    ∀ db : List Folder,
      (db.map (bulkAssign ids n)).filter (fun f => !(ids.contains f.id)) =
        db.filter (fun f => !(ids.contains f.id)) := by
  intro db
  induction db with
  | nil => rfl
  | cons f rest ih =>
    rw [List.map_cons]
    by_cases hc : f.id ∈ ids
    · have hct : ids.contains f.id = true := List.elem_iff.mpr hc
      rw [List.filter_cons_of_neg (by rw [bulkAssign_id, hct]; decide),
        List.filter_cons_of_neg (by rw [hct]; decide)]
      exact ih
    · have hcf : ids.contains f.id = false := contains_false_of_not_mem hc
      have hbf : bulkAssign ids n f = f := by
        rw [bulkAssign, if_neg (by rw [hcf]; simp)]
      rw [List.filter_cons_of_pos (by rw [bulkAssign_id, hcf]; decide),
        List.filter_cons_of_pos (by rw [hcf]; decide), hbf, ih]

theorem eq_of_perm_of_sorted_key {α β} [LinearOrder β] {k : α → β} :
    ∀ {l₁ l₂ : List α}, l₁.Perm l₂ → l₁.Sorted (fun a b => k a ≤ k b) →
      l₂.Sorted (fun a b => k a ≤ k b) → (l₁.map k).Nodup → l₁ = l₂ := by
  intro l₁
  induction l₁ with
  | nil =>
    intro l₂ hp _ _ _
    exact (List.Perm.nil_eq hp).symm.symm
  | cons a t ih =>
    intro l₂ hp hs₁ hs₂ hnd
    cases l₂ with
    | nil =>
      have := hp.length_eq
      simp at this
    | cons b s =>
      have hab : a = b := by
        by_cases h : a = b
        · exact h
        · exfalso
          have ha2 : a ∈ b :: s := hp.subset (List.mem_cons_self a t)
          have ha : a ∈ s := by
            rcases List.mem_cons.mp ha2 with h1 | h1
            · exact absurd h1 h
            · exact h1
          have hb2 : b ∈ a :: t := hp.symm.subset (List.mem_cons_self b s)
          have hb : b ∈ t := by
            rcases List.mem_cons.mp hb2 with h1 | h1
            · exact absurd h1.symm h
            · exact h1
          have h1 : k a ≤ k b := (List.sorted_cons.mp hs₁).1 b hb
          have h2 : k b ≤ k a := (List.sorted_cons.mp hs₂).1 a ha
          have hk : k a = k b := le_antisymm h1 h2
          rw [List.map_cons, List.nodup_cons] at hnd
          exact hnd.1 (hk ▸ List.mem_map_of_mem k hb)
      subst hab
      have ht : t.Perm s := hp.cons_inv
      have := ih ht (List.sorted_cons.mp hs₁).2 (List.sorted_cons.mp hs₂).2
        (by rw [List.map_cons, List.nodup_cons] at hnd; exact hnd.2)
      rw [this]

theorem nodup_map_sortKey {l : List Folder} (h : (l.map Folder.createdAt).Nodup) :
    (l.map sortKey).Nodup := by
  have hl : l.Nodup := List.Nodup.of_map _ h
  apply List.Nodup.map_on ?_ hl
  intro x hx y hy hk
  apply List.inj_on_of_nodup_map h hx hy
  have hk2 : toLex (orderRank x.order, x.createdAt) = toLex (orderRank y.order, y.createdAt) :=
    hk
  exact congrArg Prod.snd (toLex_inj.mp hk2)

/-- C8: for a duplicate-free `folderIds` list (over uniquely-identified
folders with distinct creation times), every folder whose id occurs in
the list gets its positional index as its `order` sort key, and the
folders absent from the list appear in the returned
(order, createdAt)-sorted listing exactly as they appeared in the
listing before the reorder (their relative order is preserved, ties
falling back to `createdAt`). -/
theorem c8_folder_reorder (db : List Folder) (ids : List String)
    (hids : ids.Nodup) (hdb : (db.map Folder.id).Nodup)
    (hcreated : (db.map Folder.createdAt).Nodup) :
    (∀ i, ∀ h : i < ids.length, ∀ g ∈ applyBulk db ids 0,
        g.id = ids.get ⟨i, h⟩ → g.order = some i) ∧
      (listFolders (applyBulk db ids 0)).filter (fun f => !(ids.contains f.id)) =
        (listFolders db).filter (fun f => !(ids.contains f.id)) := by
  have hchar : applyBulk db ids 0 = db.map (bulkAssign ids 0) :=
    applyBulk_eq_map ids db 0 hids hdb
  constructor
  · intro i h g hg hgid
    rw [hchar] at hg
    obtain ⟨f, hf, rfl⟩ := List.mem_map.mp hg
    rw [bulkAssign_id] at hgid
    have hmem : ids.contains f.id = true := by
      rw [hgid]
      exact List.elem_iff.mpr (ids.get_mem i h)
    rw [bulkAssign, if_pos hmem]
    show some (0 + ids.indexOf f.id) = some i
    rw [hgid, List.get_indexOf hids ⟨i, h⟩, Nat.zero_add]
  · rw [hchar]
    have hpermA : ((listFolders (db.map (bulkAssign ids 0))).filter
        (fun f => !(ids.contains f.id))).Perm (db.filter (fun f => !(ids.contains f.id))) := by
      have h1 := (List.perm_insertionSort folderLe (db.map (bulkAssign ids 0))).filter
        (fun f => !(ids.contains f.id))
      rw [filter_bulkAssign] at h1
      exact h1
    have hpermB : ((listFolders db).filter (fun f => !(ids.contains f.id))).Perm
        (db.filter (fun f => !(ids.contains f.id))) :=
      (List.perm_insertionSort folderLe db).filter (fun f => !(ids.contains f.id))
    have hsortA : ((listFolders (db.map (bulkAssign ids 0))).filter
        (fun f => !(ids.contains f.id))).Sorted folderLe :=
      List.Pairwise.sublist (List.filter_sublist _) (List.sorted_insertionSort folderLe _)
    have hsortB : ((listFolders db).filter (fun f => !(ids.contains f.id))).Sorted folderLe :=
      List.Pairwise.sublist (List.filter_sublist _) (List.sorted_insertionSort folderLe _)
    have hndA : (((listFolders (db.map (bulkAssign ids 0))).filter
        (fun f => !(ids.contains f.id))).map Folder.createdAt).Nodup := by
      have h1 : List.Sublist ((db.filter (fun f => !(ids.contains f.id))).map Folder.createdAt)
          (db.map Folder.createdAt) :=
        (List.filter_sublist db).map Folder.createdAt
      have h2 := List.Nodup.sublist h1 hcreated
      exact ((hpermA.map Folder.createdAt).symm).nodup h2
    exact eq_of_perm_of_sorted_key (hpermA.trans hpermB.symm) hsortA hsortB
      (nodup_map_sortKey hndA)

/-- C8 (witness): the folder reorder evaluated on three folders `a,b,c`
(creation times 3,1,2, no order set) with `folderIds = ["c","a"]`: `c`
gets order 0, `a` order 1, and the absent folder `b` appears in the
listing exactly where the pre-reorder listing put it. -/
theorem c8_folder_reorder_witness :
    (["c", "a"] : List String).Nodup ∧ (c8Db.map Folder.id).Nodup ∧
      (c8Db.map Folder.createdAt).Nodup ∧
      (⟨"c", "C", [], [], some 0, 2⟩ : Folder).order = some 0 ∧
      (listFolders (applyBulk c8Db ["c", "a"] 0)).filter
          (fun f => !((["c", "a"] : List String).contains f.id)) =
        (listFolders c8Db).filter (fun f => !((["c", "a"] : List String).contains f.id)) ∧
      listFolders (applyBulk c8Db ["c", "a"] 0) =
        [⟨"b", "B", [], [], none, 1⟩, ⟨"c", "C", [], [], some 0, 2⟩,
          ⟨"a", "A", [], [], some 1, 3⟩] :=
  ⟨by decide, by decide, by decide,
    (c8_folder_reorder c8Db ["c", "a"] (by decide) (by decide) (by decide)).1 0 (by decide)
      ⟨"c", "C", [], [], some 0, 2⟩ (by decide) (by decide),
    (c8_folder_reorder c8Db ["c", "a"] (by decide) (by decide) (by decide)).2,
    by decide⟩

/-- C3 (witness): idempotence evaluated on a concrete collection and a
desired order containing a duplicate and an unknown id. -/
theorem c3_reconcile_idem_witness :
    (([⟨"u1", "a", none⟩, ⟨"u2", "b", none⟩] : List ImageObj).map ImageObj.public_id).Nodup ∧
      reconcile ImageObj.public_id
          (reconcile ImageObj.public_id [⟨"u1", "a", none⟩, ⟨"u2", "b", none⟩] ["b", "b", "zz"])
          ["b", "b", "zz"] =
        reconcile ImageObj.public_id [⟨"u1", "a", none⟩, ⟨"u2", "b", none⟩] ["b", "b", "zz"] :=
  ⟨by decide, c3_reconcile_idem ImageObj.public_id _ _ (by decide)⟩

end Kooyapady
